import Mathlib

/-!
Verification of the greedy partitioning core of `optimization/optimize_distribution.py`
and the log-delta analyzer `optimization/log_to_cus.py`.

The Python `while` loop is embedded as the fuel-indexed function `distLoop`
(`none` = the loop did not finish within the given fuel); a structurally
recursive companion `distRun` is proved equivalent on terminating runs and
carries the inductive proofs.
-/

namespace Elusiv

/-- `MAX_CUS = 1000000` from optimize_distribution.py line 1. -/
def MAX_CUS : Int := 1000000

/-- `SECURITY_PADDING = 2000` from optimize_distribution.py line 2. -/
def SECURITY_PADDING : Int := 2000

/-- The values the script prints at the end of `find_optimal_distribution`:
the `iterations` list and the `Remaining CUs` diagnostic. -/
structure DistResult where
  iterations : List Nat
  remaining_cus : Int
deriving Repr, DecidableEq

/-- The `while rounds < len(rounds_cus)` loop of `find_optimal_distribution`
(optimize_distribution.py lines 12-23), with explicit state
`(rounds, iterations, iteration_rounds, iteration_cus)` and a fuel bound;
`none` means the loop has not exited within `fuel` iterations.  On exit the
final `iterations.append(iteration_rounds)` of line 23 is performed and the
final `iteration_cus` is returned for the line-29 diagnostic. -/
def distLoop (max : Int) (rounds_cus : List Nat) :
    Nat → Nat → List Nat → Nat → Int → Option (List Nat × Int)
  | 0, _, _, _, _ => none
  | fuel+1, rounds, iterations, iteration_rounds, iteration_cus =>
    if rounds < rounds_cus.length then
      if iteration_cus + (rounds_cus.getD rounds 0 : Int) ≤ max then
        distLoop max rounds_cus fuel (rounds + 1) iterations
          (iteration_rounds + 1) (iteration_cus + (rounds_cus.getD rounds 0 : Int))
      else
        distLoop max rounds_cus fuel rounds (iterations ++ [iteration_rounds]) 0 0
    else
      some (iterations ++ [iteration_rounds], iteration_cus)

/-- `find_optimal_distribution(rounds_cus, start_cus, idle_cus)`
(optimize_distribution.py lines 5-29): computes
`max = MAX_CUS - SECURITY_PADDING - idle_cus`, runs the scan from
`iteration_cus = start_cus`, and reports the `iterations` list together with
the printed `Remaining CUs:  MAX_CUS - iteration_cus` value (line 29). -/
def find_optimal_distribution (fuel : Nat) (rounds_cus : List Nat)
    (start_cus idle_cus : Int) : Option DistResult :=
  let max := MAX_CUS - SECURITY_PADDING - idle_cus
  (distLoop max rounds_cus fuel 0 [] 0 start_cus).map
    (fun r => { iterations := r.1, remaining_cus := MAX_CUS - r.2 })

/-- Structurally recursive restatement of the scan: the `else` branch of the
loop (close the window, re-examine the same step with `iteration_cus = 0`) is
collapsed with the immediately following re-examination of that step.  A step
that fits in no window at all (`0 + c > max`) makes the Python loop spin
forever, which this function reports as `none`. -/
def distRun (max : Int) : List Nat → List Nat → Nat → Int → Option (List Nat × Int)
  | [], iterations, iteration_rounds, iteration_cus =>
      some (iterations ++ [iteration_rounds], iteration_cus)
  | c :: cs, iterations, iteration_rounds, iteration_cus =>
      if iteration_cus + (c : Int) ≤ max then
        distRun max cs iterations (iteration_rounds + 1) (iteration_cus + (c : Int))
      else if (0 : Int) + (c : Int) ≤ max then
        distRun max cs (iterations ++ [iteration_rounds]) 1 ((0 : Int) + (c : Int))
      else none

/-! ### Bridge between the fuelled loop and the structural scan -/

theorem distLoop_fuel_succ (max : Int) (rcs : List Nat) :
    ∀ fuel rounds its wr wc r,
      distLoop max rcs fuel rounds its wr wc = some r →
      distLoop max rcs (fuel + 1) rounds its wr wc = some r := by
  intro fuel
  induction fuel with
  | zero => intro rounds its wr wc r h; simp [distLoop] at h
  | succ n ih =>
    intro rounds its wr wc r h
    rw [distLoop] at h
    rw [distLoop]
    split at h
    · split at h
      · rename_i hlt hfit
        rw [if_pos hlt, if_pos hfit]
        exact ih _ _ _ _ _ h
      · rename_i hlt hfit
        rw [if_pos hlt, if_neg hfit]
        exact ih _ _ _ _ _ h
    · rename_i hlt
      rw [if_neg hlt]
      exact h

theorem distLoop_fuel_mono (max : Int) (rcs : List Nat) :
    ∀ fuel fuel' rounds its wr wc r, fuel ≤ fuel' →
      distLoop max rcs fuel rounds its wr wc = some r →
      distLoop max rcs fuel' rounds its wr wc = some r := by
  intro fuel fuel'
  induction fuel' with
  | zero =>
    intro rounds its wr wc r hle h
    have : fuel = 0 := Nat.le_zero.mp hle
    simp [this, distLoop] at h
  | succ n ih =>
    intro rounds its wr wc r hle h
    rcases Nat.lt_or_ge fuel (n + 1) with hlt | hge
    · exact distLoop_fuel_succ max rcs n rounds its wr wc r
        (ih rounds its wr wc r (Nat.lt_succ_iff.mp hlt) h)
    · have : fuel = n + 1 := Nat.le_antisymm hle hge
      exact this ▸ h

/-- A terminating run of the while loop computes the same answer as the
structural scan of the remaining suffix of the cost list. -/
theorem distLoop_to_run (max : Int) (rcs : List Nat) :
    ∀ fuel rounds its wr wc r,
      distLoop max rcs fuel rounds its wr wc = some r →
      distRun max (rcs.drop rounds) its wr wc = some r := by
  intro fuel
  induction fuel with
  | zero => intro rounds its wr wc r h; simp [distLoop] at h
  | succ n ih =>
    intro rounds its wr wc r h
    rw [distLoop] at h
    split at h
    · rename_i hlt
      obtain ⟨c, cs', hdrop⟩ : ∃ c cs', rcs.drop rounds = c :: cs' := by
        rcases hcs : rcs.drop rounds with _ | ⟨c, cs'⟩
        · exact absurd (List.drop_eq_nil_iff.mp hcs) (Nat.not_le.mpr hlt)
        · exact ⟨c, cs', rfl⟩
      have hgetD : rcs.getD rounds 0 = c := by
        have h1 : rcs[rounds]? = some c := by
          rw [← List.head?_drop, hdrop]; rfl
        simp [List.getD_eq_getElem?_getD, h1]
      have hdrop1 : rcs.drop (rounds + 1) = cs' := by
        have : rcs.drop (rounds + 1) = (rcs.drop rounds).tail := by
          rw [← List.drop_one, List.drop_drop]
        rw [this, hdrop, List.tail_cons]
      split at h
      · rename_i hfit
        have hrec := ih _ _ _ _ _ h
        rw [hdrop1] at hrec
        rw [hgetD] at hfit hrec
        rw [hdrop, distRun, if_pos hfit]
        exact hrec
      · rename_i hfit
        have hrec := ih _ _ _ _ _ h
        rw [hdrop, distRun] at hrec
        rw [hgetD] at hfit
        rw [hdrop, distRun, if_neg hfit]
        by_cases h0 : (0 : Int) + (c : Int) ≤ max
        · rw [if_pos h0]
          rw [if_pos h0] at hrec
          exact hrec
        · rw [if_neg h0, if_neg h0] at hrec
          exact absurd hrec (by simp)
    · rename_i hlt
      have : rcs.drop rounds = [] := List.drop_eq_nil_iff.mpr (Nat.le_of_not_lt hlt)
      rw [this, distRun]
      exact h

/-- A successful structural scan of the remaining suffix can be replayed by
the while loop within `2 * (suffix length) + 1` loop iterations. -/
theorem distRun_to_loop (max : Int) (rcs : List Nat) :
    ∀ cs rounds its wr wc r, rcs.drop rounds = cs →
      distRun max cs its wr wc = some r →
      distLoop max rcs (2 * cs.length + 1) rounds its wr wc = some r := by
  intro cs
  induction cs with
  | nil =>
    intro rounds its wr wc r hdrop h
    rw [distRun] at h
    rw [distLoop, if_neg (Nat.not_lt.mpr (List.drop_eq_nil_iff.mp hdrop))]
    exact h
  | cons c cs' ih =>
    intro rounds its wr wc r hdrop h
    have hlt : rounds < rcs.length := by
      by_contra hge
      rw [List.drop_eq_nil_iff.mpr (Nat.le_of_not_lt hge)] at hdrop
      exact List.cons_ne_nil c cs' hdrop.symm
    have hgetD : rcs.getD rounds 0 = c := by
      have h1 : rcs[rounds]? = some c := by
        rw [← List.head?_drop, hdrop]; rfl
      simp [List.getD_eq_getElem?_getD, h1]
    have hdrop1 : rcs.drop (rounds + 1) = cs' := by
      have h2 : rcs.drop (rounds + 1) = (rcs.drop rounds).tail := by
        rw [← List.drop_one, List.drop_drop]
      rw [h2, hdrop, List.tail_cons]
    rw [distRun] at h
    rw [distLoop, if_pos hlt, hgetD]
    by_cases hfit : wc + (c : Int) ≤ max
    · rw [if_pos hfit] at h ⊢
      have hloop := ih (rounds + 1) its (wr + 1) (wc + (c : Int)) r hdrop1 h
      exact distLoop_fuel_mono max rcs _ _ _ _ _ _ _
        (by simp [List.length_cons]; omega) hloop
    · rw [if_neg hfit] at h ⊢
      by_cases h0 : (0 : Int) + (c : Int) ≤ max
      · rw [if_pos h0] at h
        have hstep : 2 * (c :: cs').length = (2 * cs'.length + 1) + 1 := by
          simp [List.length_cons]; omega
        rw [hstep, distLoop, if_pos hlt, hgetD, if_pos h0]
        exact ih (rounds + 1) (its ++ [wr]) 1 ((0 : Int) + (c : Int)) r hdrop1 h
      · rw [if_neg h0] at h
        exact absurd h (by simp)

/-! ### Structural properties of the scan -/

/-- The `iterations` accumulator is only ever appended to: a common prefix can
be factored out of a run. -/
theorem distRun_prefix (max : Int) :
    ∀ cs pre its wr wc,
      distRun max cs (pre ++ its) wr wc =
        (distRun max cs its wr wc).map (fun p => (pre ++ p.1, p.2)) := by
  intro cs
  induction cs with
  | nil =>
    intro pre its wr wc
    simp [distRun, List.append_assoc]
  | cons c cs' ih =>
    intro pre its wr wc
    rw [distRun, distRun]
    by_cases hfit : wc + (c : Int) ≤ max
    · rw [if_pos hfit, if_pos hfit, ih]
    · rw [if_neg hfit, if_neg hfit]
      by_cases h0 : (0 : Int) + (c : Int) ≤ max
      · rw [if_pos h0, if_pos h0, List.append_assoc]
        exact ih pre (its ++ [wr]) 1 ((0 : Int) + (c : Int))
      · rw [if_neg h0, if_neg h0]
        rfl

/-- Coverage: the window sizes produced by a completed scan sum to the length
of the scanned list (plus whatever was already accumulated). -/
theorem distRun_sum (max : Int) :
    ∀ cs its wr wc its2 wcf,
      distRun max cs its wr wc = some (its2, wcf) →
      its2.sum = its.sum + wr + cs.length := by
  intro cs
  induction cs with
  | nil =>
    intro its wr wc its2 wcf h
    rw [distRun] at h
    obtain ⟨h1, _⟩ := Prod.mk.injEq .. ▸ Option.some.inj h
    simp [← h1, List.sum_append]
  | cons c cs' ih =>
    intro its wr wc its2 wcf h
    rw [distRun] at h
    by_cases hfit : wc + (c : Int) ≤ max
    · rw [if_pos hfit] at h
      have := ih _ _ _ _ _ h
      simp only [List.length_cons] at *
      omega
    · rw [if_neg hfit] at h
      by_cases h0 : (0 : Int) + (c : Int) ≤ max
      · rw [if_pos h0] at h
        have := ih _ _ _ _ _ h
        simp only [List.sum_append, List.sum_cons, List.sum_nil, List.length_cons] at *
        omega
      · rw [if_neg h0] at h
        exact absurd h (by simp)

/-- Unfold a successful `find_optimal_distribution` into a successful
structural scan. -/
theorem fod_some (fuel : Nat) (costs : List Nat) (start idle : Int)
    (res : DistResult)
    (h : find_optimal_distribution fuel costs start idle = some res) :
    ∃ its wcf,
      distRun (MAX_CUS - SECURITY_PADDING - idle) costs [] 0 start = some (its, wcf) ∧
      res.iterations = its ∧ res.remaining_cus = MAX_CUS - wcf := by
  unfold find_optimal_distribution at h
  obtain ⟨p, hp, hres⟩ := Option.map_eq_some'.mp h
  refine ⟨p.1, p.2, ?_, ?_, ?_⟩
  · have := distLoop_to_run (MAX_CUS - SECURITY_PADDING - idle) costs fuel 0 [] 0 start p hp
    simpa using this
  · rw [← hres]
  · rw [← hres]

/-- Conversely, a successful structural scan is realised by
`find_optimal_distribution` with fuel `2 * length + 1`. -/
theorem fod_of_run (costs : List Nat) (start idle : Int) (its : List Nat) (wcf : Int)
    (h : distRun (MAX_CUS - SECURITY_PADDING - idle) costs [] 0 start = some (its, wcf)) :
    find_optimal_distribution (2 * costs.length + 1) costs start idle =
      some ⟨its, MAX_CUS - wcf⟩ := by
  have hloop := distRun_to_loop (MAX_CUS - SECURITY_PADDING - idle) costs costs 0 [] 0 start
    (its, wcf) (List.drop_zero costs) h
  unfold find_optimal_distribution
  simp only [hloop, Option.map_some']

/-- Slice a cost list into consecutive windows of the given sizes:
`windowSlices costs sizes` is the list of cost segments assigned to each
window of the partition `sizes`. -/
def windowSlices : List Nat → List Nat → List (List Nat)
  | _, [] => []
  | cs, n :: rest => cs.take n :: windowSlices (cs.drop n) rest

/-- Capacity: on a completed scan whose running window cost starts within
budget, the current window (completed with `a` further steps) stays within
budget and every subsequently opened window does too. -/
theorem distRun_capacity (max : Int) :
    ∀ cs its wr wc its2 wcf,
      distRun max cs its wr wc = some (its2, wcf) → wc ≤ max →
      ∃ a ms, its2 = its ++ (wr + a) :: ms ∧ a ≤ cs.length ∧
        wc + ((cs.take a).sum : Int) ≤ max ∧
        ∀ sl ∈ windowSlices (cs.drop a) ms, ((sl.sum : Nat) : Int) ≤ max := by
  intro cs
  induction cs with
  | nil =>
    intro its wr wc its2 wcf h hwc
    rw [distRun] at h
    obtain ⟨h1, _⟩ := Prod.mk.injEq .. ▸ Option.some.inj h
    refine ⟨0, [], ?_, by simp, by simpa using hwc, by simp [windowSlices]⟩
    simp [← h1]
  | cons c cs' ih =>
    intro its wr wc its2 wcf h hwc
    rw [distRun] at h
    by_cases hfit : wc + (c : Int) ≤ max
    · rw [if_pos hfit] at h
      obtain ⟨a', ms', hshape, hlen, hcap, hrest⟩ := ih _ _ _ _ _ h hfit
      refine ⟨a' + 1, ms', ?_, ?_, ?_, ?_⟩
      · rw [hshape]
        congr 2
        omega
      · simp only [List.length_cons]; omega
      · rw [List.take_succ_cons]
        push_cast [List.sum_cons]
        push_cast at hcap
        linarith
      · rw [List.drop_succ_cons]
        exact hrest
    · rw [if_neg hfit] at h
      by_cases h0 : (0 : Int) + (c : Int) ≤ max
      · rw [if_pos h0] at h
        obtain ⟨a', ms', hshape, hlen, hcap, hrest⟩ := ih _ _ _ _ _ h h0
        refine ⟨0, (1 + a') :: ms', ?_, by simp, by simpa using hwc, ?_⟩
        · rw [hshape]
          simp
        · rw [List.drop_zero]
          intro sl hsl
          rw [windowSlices] at hsl
          rcases List.mem_cons.mp hsl with hsl | hsl
          · subst hsl
            have h1 : (c :: cs').take (1 + a') = c :: cs'.take a' := by
              rw [Nat.add_comm, List.take_succ_cons]
            rw [h1]
            push_cast [List.sum_cons]
            push_cast at hcap
            linarith
          · have : (c :: cs').drop (1 + a') = cs'.drop a' := by
              rw [Nat.add_comm, List.drop_succ_cons]
            rw [this] at hsl
            exact hrest sl hsl
      · rw [if_neg h0] at h
        exact absurd h (by simp)

/-- The final running cost returned by a completed scan is the cumulative
cost of the last produced window (including the inherited `wc` when no window
was ever closed). -/
theorem distRun_final (max : Int) :
    ∀ cs its wr wc its2 wcf,
      distRun max cs its wr wc = some (its2, wcf) →
      ∃ a ms, its2 = its ++ (wr + a) :: ms ∧
        wcf = if ms = [] then wc + ((cs.take a).sum : Int)
              else ((((windowSlices (cs.drop a) ms).getLast?.getD []).sum : Nat) : Int) := by
  intro cs
  induction cs with
  | nil =>
    intro its wr wc its2 wcf h
    rw [distRun] at h
    obtain ⟨h1, h2⟩ := Prod.mk.injEq .. ▸ Option.some.inj h
    refine ⟨0, [], by simp [← h1], ?_⟩
    simp [← h2]
  | cons c cs' ih =>
    intro its wr wc its2 wcf h
    rw [distRun] at h
    by_cases hfit : wc + (c : Int) ≤ max
    · rw [if_pos hfit] at h
      obtain ⟨a', ms', hshape, hval⟩ := ih _ _ _ _ _ h
      refine ⟨a' + 1, ms', ?_, ?_⟩
      · rw [hshape]; congr 2; omega
      · by_cases hms : ms' = []
        · subst hms
          rw [if_pos rfl] at hval ⊢
          rw [List.take_succ_cons]
          push_cast [List.sum_cons]
          push_cast at hval
          linarith
        · rw [if_neg hms] at hval ⊢
          rw [List.drop_succ_cons]
          exact hval
    · rw [if_neg hfit] at h
      by_cases h0 : (0 : Int) + (c : Int) ≤ max
      · rw [if_pos h0] at h
        obtain ⟨a', ms', hshape, hval⟩ := ih _ _ _ _ _ h
        refine ⟨0, (1 + a') :: ms', by rw [hshape]; simp, ?_⟩
        rw [if_neg (List.cons_ne_nil _ _)]
        rw [List.drop_zero, windowSlices]
        have htake : (c :: cs').take (1 + a') = c :: cs'.take a' := by
          rw [Nat.add_comm, List.take_succ_cons]
        have hdrop : (c :: cs').drop (1 + a') = cs'.drop a' := by
          rw [Nat.add_comm, List.drop_succ_cons]
        rw [htake, hdrop]
        by_cases hms : ms' = []
        · subst hms
          rw [if_pos rfl] at hval
          rw [windowSlices]
          simp only [List.getLast?_singleton, Option.getD_some]
          push_cast [List.sum_cons]
          push_cast at hval
          linarith
        · rw [if_neg hms] at hval
          obtain ⟨m, ms'', rfl⟩ := List.exists_cons_of_ne_nil hms
          rw [windowSlices, List.getLast?_cons_cons]
          rw [windowSlices] at hval
          exact hval
      · rw [if_neg h0] at h
        exact absurd h (by simp)

/-- Once the current window closes, the rest of the scan is a fresh scan of
the remaining costs that starts from a running cost of `0`: the inherited
`wc` (in particular the start offset) plays no further role. -/
theorem distRun_decomp (max : Int) :
    ∀ cs its wr wc its2 wcf,
      distRun max cs its wr wc = some (its2, wcf) →
      ∃ a ms, its2 = its ++ (wr + a) :: ms ∧ a ≤ cs.length ∧
        (ms = [] → cs.drop a = []) ∧
        (ms ≠ [] → distRun max (cs.drop a) [] 0 0 = some (ms, wcf)) := by
  intro cs
  induction cs with
  | nil =>
    intro its wr wc its2 wcf h
    rw [distRun] at h
    obtain ⟨h1, _⟩ := Prod.mk.injEq .. ▸ Option.some.inj h
    exact ⟨0, [], by simp [← h1], by simp, fun _ => rfl, fun hne => absurd rfl hne⟩
  | cons c cs' ih =>
    intro its wr wc its2 wcf h
    rw [distRun] at h
    by_cases hfit : wc + (c : Int) ≤ max
    · rw [if_pos hfit] at h
      obtain ⟨a', ms', hshape, hlen, hnil, hcont⟩ := ih _ _ _ _ _ h
      refine ⟨a' + 1, ms', ?_, ?_, ?_, ?_⟩
      · rw [hshape]; congr 2; omega
      · simp only [List.length_cons]; omega
      · intro hms
        rw [List.drop_succ_cons]
        exact hnil hms
      · intro hms
        rw [List.drop_succ_cons]
        exact hcont hms
    · rw [if_neg hfit] at h
      by_cases h0 : (0 : Int) + (c : Int) ≤ max
      · rw [if_pos h0] at h
        have hpre := distRun_prefix max cs' (its ++ [wr]) [] 1 ((0 : Int) + (c : Int))
        rw [List.append_nil] at hpre
        rw [hpre] at h
        obtain ⟨⟨X, w⟩, hp, hmap⟩ := Option.map_eq_some'.mp h
        obtain ⟨hX, hw⟩ := Prod.mk.injEq .. ▸ hmap
        obtain ⟨a', ms', hshape, hlen, hnil, hcont⟩ := ih _ _ _ _ _ hp
        rw [List.nil_append] at hshape
        subst hshape
        refine ⟨0, (1 + a') :: ms', ?_, by simp, fun hms => absurd hms (by simp), ?_⟩
        · rw [← hX]
          simp
        · intro _
          rw [List.drop_zero, distRun, if_pos h0]
          simp only at hw
          rw [hp, hw]
      · rw [if_neg h0] at h
        exact absurd h (by simp)

/-- Spec-side predicate for greedy maximality: scanning the windows `sizes`
over the cost list `cs`, every window except the last one was closed only
because the first step of the following window did not fit on top of it.
`wc0` is the running cost the first window starts from. -/
def GreedyMax (max : Int) : Int → List Nat → List Nat → Prop
  | _, _, [] => True
  | wc0, cs, n :: rest =>
      (rest ≠ [] → max < wc0 + ((cs.take n).sum : Int) + (cs.getD n 0 : Int)) ∧
      GreedyMax max 0 (cs.drop n) rest

/-- Greedy maximality of a completed scan: each produced window, except the
final one, is closed exactly when the next step would overflow it. -/
theorem distRun_greedy (max : Int) :
    ∀ cs its wr wc its2 wcf,
      distRun max cs its wr wc = some (its2, wcf) →
      ∃ a ms, its2 = its ++ (wr + a) :: ms ∧ GreedyMax max wc cs (a :: ms) := by
  intro cs
  induction cs with
  | nil =>
    intro its wr wc its2 wcf h
    rw [distRun] at h
    obtain ⟨h1, _⟩ := Prod.mk.injEq .. ▸ Option.some.inj h
    refine ⟨0, [], by simp [← h1], ?_⟩
    rw [GreedyMax]
    exact ⟨fun hx => absurd rfl hx, by rw [GreedyMax]; trivial⟩
  | cons c cs' ih =>
    intro its wr wc its2 wcf h
    rw [distRun] at h
    by_cases hfit : wc + (c : Int) ≤ max
    · rw [if_pos hfit] at h
      obtain ⟨a', ms', hshape, hgm⟩ := ih _ _ _ _ _ h
      refine ⟨a' + 1, ms', by rw [hshape]; congr 2; omega, ?_⟩
      rw [GreedyMax]
      rw [GreedyMax] at hgm
      obtain ⟨hclose, hrest⟩ := hgm
      constructor
      · intro hms
        have hclose' := hclose hms
        rw [List.take_succ_cons, List.getD_cons_succ]
        push_cast [List.sum_cons]
        push_cast at hclose'
        linarith
      · rw [List.drop_succ_cons]
        exact hrest
    · rw [if_neg hfit] at h
      by_cases h0 : (0 : Int) + (c : Int) ≤ max
      · rw [if_pos h0] at h
        obtain ⟨a', ms', hshape, hgm⟩ := ih _ _ _ _ _ h
        refine ⟨0, (1 + a') :: ms', by rw [hshape]; simp, ?_⟩
        rw [GreedyMax]
        rw [GreedyMax] at hgm
        obtain ⟨hclose, hrest⟩ := hgm
        constructor
        · intro _
          simpa using not_le.mp hfit
        · rw [List.drop_zero, GreedyMax]
          have htake : (c :: cs').take (1 + a') = c :: cs'.take a' := by
            rw [Nat.add_comm, List.take_succ_cons]
          have hdrop : (c :: cs').drop (1 + a') = cs'.drop a' := by
            rw [Nat.add_comm, List.drop_succ_cons]
          have hget : (c :: cs').getD (1 + a') 0 = cs'.getD a' 0 := by
            rw [Nat.add_comm, List.getD_cons_succ]
          constructor
          · intro hms
            have hclose' := hclose hms
            rw [htake, hget]
            push_cast [List.sum_cons]
            push_cast at hclose'
            linarith
          · rw [hdrop]
            exact hrest
      · rw [if_neg h0] at h
        exact absurd h (by simp)

/-- If every cost fits the capacity on its own, the scan always completes. -/
theorem distRun_total (max : Int) :
    ∀ cs its wr wc, (∀ c : Nat, c ∈ cs → (c : Int) ≤ max) →
      ∃ r, distRun max cs its wr wc = some r := by
  intro cs
  induction cs with
  | nil => intro its wr wc _; exact ⟨_, rfl⟩
  | cons c cs' ih =>
    intro its wr wc hall
    rw [distRun]
    by_cases hfit : wc + (c : Int) ≤ max
    · rw [if_pos hfit]
      exact ih _ _ _ fun d hd => hall d (List.mem_cons_of_mem c hd)
    · rw [if_neg hfit, if_pos]
      · exact ih _ _ _ fun d hd => hall d (List.mem_cons_of_mem c hd)
      · have := hall c (List.mem_cons_self c cs')
        linarith

/-- If the cost at the current scan position exceeds the capacity while the
running window cost is non-negative, the while loop never exits, whatever the
fuel: it keeps closing empty windows without ever advancing `rounds`. -/
theorem distLoop_stuck (max : Int) (rcs : List Nat) :
    ∀ fuel rounds its wr wc, rounds < rcs.length →
      max < (rcs.getD rounds 0 : Int) → 0 ≤ wc →
      distLoop max rcs fuel rounds its wr wc = none := by
  intro fuel
  induction fuel with
  | zero => intros; rw [distLoop]
  | succ n ih =>
    intro rounds its wr wc hlt hbig hwc
    rw [distLoop, if_pos hlt, if_neg (by linarith)]
    exact ih rounds _ 0 0 hlt hbig le_rfl

/-- Simulation: pointwise-smaller costs scanned against a not-smaller
capacity, from a dominated state, complete whenever the original scan
completes, and close no more windows. -/
theorem distRun_dominance (max max' : Int) (hmax : max ≤ max') :
    ∀ {cs cs' : List Nat}, List.Forall₂ (fun a b => a ≤ b) cs' cs →
    ∀ its its' wr wr' wc wc' r,
      0 ≤ wc → 0 ≤ wc' →
      (its'.length < its.length ∨ (its'.length = its.length ∧ wc' ≤ wc)) →
      distRun max cs its wr wc = some r →
      ∃ r', distRun max' cs' its' wr' wc' = some r' ∧ r'.1.length ≤ r.1.length := by
  intro cs cs' hforall
  induction hforall with
  | nil =>
    intro its its' wr wr' wc wc' r hwc hwc' hD h
    rw [distRun] at h
    obtain rfl : (its ++ [wr], wc) = r := Option.some.inj h
    refine ⟨(its' ++ [wr'], wc'), by rw [distRun], ?_⟩
    simp only [List.length_append, List.length_cons, List.length_nil]
    rcases hD with hlt | ⟨heq, _⟩
    · omega
    · omega
  | @cons a b l₁ l₂ hab htail ih =>
    intro its its' wr wr' wc wc' r hwc hwc' hD h
    have hab' : (a : Int) ≤ b := by exact_mod_cast hab
    rw [distRun] at h
    rw [distRun]
    by_cases hfitO : wc + (b : Int) ≤ max
    · rw [if_pos hfitO] at h
      by_cases hfitN : wc' + (a : Int) ≤ max'
      · rw [if_pos hfitN]
        refine ih its its' (wr + 1) (wr' + 1) _ _ r (by linarith) (by linarith) ?_ h
        rcases hD with hlt | ⟨heq, hle⟩
        · exact Or.inl hlt
        · exact Or.inr ⟨heq, by linarith⟩
      · rcases hD with hlt | ⟨heq, hle⟩
        · have ha_max : (a : Int) ≤ max' := by linarith
          rw [if_neg hfitN, if_pos (by linarith)]
          refine ih its (its' ++ [wr']) (wr + 1) 1 _ _ r (by linarith) (by positivity) ?_ h
          simp only [List.length_append, List.length_cons, List.length_nil]
          rcases Nat.lt_or_ge (its'.length + 1) its.length with h2 | h2
          · exact Or.inl (by omega)
          · refine Or.inr ⟨by omega, by linarith⟩
        · exact absurd (by linarith : wc' + (a : Int) ≤ max') hfitN
    · rw [if_neg hfitO] at h
      by_cases h0O : (0 : Int) + (b : Int) ≤ max
      · rw [if_pos h0O] at h
        by_cases hfitN : wc' + (a : Int) ≤ max'
        · rw [if_pos hfitN]
          refine ih (its ++ [wr]) its' 1 (wr' + 1) _ _ r (by linarith) (by linarith) ?_ h
          simp only [List.length_append, List.length_cons, List.length_nil]
          rcases hD with hlt | ⟨heq, _⟩
          · exact Or.inl (by omega)
          · exact Or.inl (by omega)
        · rw [if_neg hfitN, if_pos (by linarith)]
          refine ih (its ++ [wr]) (its' ++ [wr']) 1 1 _ _ r (by linarith) (by positivity) ?_ h
          simp only [List.length_append, List.length_cons, List.length_nil]
          rcases hD with hlt | ⟨heq, _⟩
          · exact Or.inl (by omega)
          · exact Or.inr ⟨by omega, by linarith⟩
      · rw [if_neg h0O] at h
        exact absurd h (by simp)

/-! ### Claim theorems -/

/-- Claim C1, counterexample: on the cost list `[999000]` (with
`start_cus = 0`, `idle_cus = 0`, so the effective capacity is `998000`),
`find_optimal_distribution` never returns, whatever fuel the while loop is
given: the single step's cost exceeds the capacity and the scan never
advances past it, contrary to the claim that it is placed alone in a fresh
window and the scan terminates. -/
theorem oversized_step_never_returns :
    ¬ ∃ (fuel : Nat) (res : DistResult),
        find_optimal_distribution fuel [999000] 0 0 = some res := by
  rintro ⟨fuel, res, h⟩
  unfold find_optimal_distribution at h
  obtain ⟨p, hp, _⟩ := Option.map_eq_some'.mp h
  rw [distLoop_stuck (MAX_CUS - SECURITY_PADDING - 0) [999000] fuel 0 [] 0 0
    (by decide) (by decide) le_rfl] at hp
  exact Option.noConfusion hp

/-- Claim C1, amended: the scan terminates (with fuel `2·len + 1`) after
exactly `len(rounds_cus)` assignment steps — the produced window sizes sum to
the input length — provided every individual cost fits the effective
capacity; a step whose cost exceeds the capacity instead loops forever
(see `oversized_step_never_returns`). -/
theorem terminates_of_no_oversized_step (costs : List Nat) (start idle : Int)
    (hall : ∀ c : Nat, c ∈ costs → (c : Int) ≤ MAX_CUS - SECURITY_PADDING - idle) :
    ∃ res : DistResult,
      find_optimal_distribution (2 * costs.length + 1) costs start idle = some res ∧
      res.iterations.sum = costs.length := by
  obtain ⟨⟨its, wcf⟩, hrun⟩ := distRun_total _ costs [] 0 start hall
  refine ⟨⟨its, MAX_CUS - wcf⟩, fod_of_run costs start idle its wcf hrun, ?_⟩
  simpa using distRun_sum _ _ _ _ _ _ _ hrun

/-- Witness for the amended claim C1 at the concrete input
`[10, 10, 10]`, `start_cus = 0`, `idle_cus = 997970` (effective capacity
`30`). -/
theorem terminates_of_no_oversized_step_witness :
    ∃ res : DistResult,
      find_optimal_distribution 7 [10, 10, 10] 0 997970 = some res ∧
      res.iterations.sum = ([10, 10, 10] : List Nat).length :=
  terminates_of_no_oversized_step [10, 10, 10] 0 997970 (by decide)

/-- Claim C3: on any input on which `find_optimal_distribution` returns, the
produced window sizes (`iterations`) sum to the length of the cost list:
every step is assigned to exactly one window. -/
theorem coverage_invariant (fuel : Nat) (costs : List Nat) (start idle : Int)
    (res : DistResult)
    (h : find_optimal_distribution fuel costs start idle = some res) :
    res.iterations.sum = costs.length := by
  obtain ⟨its, wcf, hrun, hits, _⟩ := fod_some fuel costs start idle res h
  have hsum := distRun_sum _ _ _ _ _ _ _ hrun
  rw [hits]
  simpa using hsum

/-- Witness for claim C3 at the concrete input `[10, 10, 10]`,
`start_cus = 0`, `idle_cus = 997980` (effective capacity `20`). -/
theorem coverage_invariant_witness :
    (⟨[2, 1], 999990⟩ : DistResult).iterations.sum = ([10, 10, 10] : List Nat).length :=
  coverage_invariant 7 [10, 10, 10] 0 997980 ⟨[2, 1], 999990⟩ (by decide)

/-- Claim C4, counterexample: with `idle_cus = 1000000` the effective
capacity is `-2000 ≤ 0`, yet `find_optimal_distribution` raises no error:
on the empty cost list it happily returns a normal partition. -/
theorem no_invalid_configuration_error :
    (MAX_CUS - SECURITY_PADDING - 1000000 ≤ 0) ∧
    find_optimal_distribution 1 [] 7 1000000 = some ⟨[0], 999993⟩ :=
  ⟨by decide, by decide⟩

/-- Claim C4, amended: the code contains no configuration validation at all.
When the effective capacity is `≤ 0` it still scans: an empty cost list
yields the normal single-window result, while any cost list starting with a
positive cost makes the loop spin forever (no result, but also no error). -/
theorem no_validation_of_nonpositive_capacity :
    (∀ (fuel : Nat) (start idle : Int), MAX_CUS - SECURITY_PADDING - idle ≤ 0 →
        find_optimal_distribution (fuel + 1) [] start idle =
          some ⟨[0], MAX_CUS - start⟩) ∧
    (∀ (fuel : Nat) (start idle : Int) (c : Nat) (cs : List Nat),
        MAX_CUS - SECURITY_PADDING - idle ≤ 0 → 0 ≤ start → 1 ≤ c →
        find_optimal_distribution fuel (c :: cs) start idle = none) := by
  constructor
  · intro fuel start idle _
    have hloop : distLoop (MAX_CUS - SECURITY_PADDING - idle) [] (fuel + 1) 0 [] 0 start =
        some ([0], start) := by
      rw [distLoop]
      simp
    unfold find_optimal_distribution
    simp only [hloop, Option.map_some']
  · intro fuel start idle c cs hcap hstart hc
    have hloop := distLoop_stuck (MAX_CUS - SECURITY_PADDING - idle) (c :: cs) fuel 0 [] 0 start
      (by simp) (by simp; exact_mod_cast lt_of_le_of_lt hcap (by exact_mod_cast hc)) hstart
    unfold find_optimal_distribution
    simp only [hloop, Option.map_none']

/-- Witness for the amended claim C4: concrete empty-list and positive-cost
runs with `idle_cus = 1000000` (effective capacity `-2000`). -/
theorem no_validation_of_nonpositive_capacity_witness :
    find_optimal_distribution 1 [] 7 1000000 = some ⟨[0], MAX_CUS - 7⟩ ∧
    find_optimal_distribution 5 [1] 0 1000000 = none :=
  ⟨no_validation_of_nonpositive_capacity.1 0 7 1000000 (by decide),
   no_validation_of_nonpositive_capacity.2 5 0 1000000 1 [] (by decide) le_rfl le_rfl⟩

/-- Claim C8: the empty cost sequence is a valid input, not an error: for any
configuration with positive effective capacity the function returns a
partition with exactly one window, of size `0`. -/
theorem empty_input_single_zero_window (fuel : Nat) (start idle : Int)
    (hcap : 0 < MAX_CUS - SECURITY_PADDING - idle) :
    find_optimal_distribution (fuel + 1) [] start idle =
      some ⟨[0], MAX_CUS - start⟩ := by
  have hloop : distLoop (MAX_CUS - SECURITY_PADDING - idle) [] (fuel + 1) 0 [] 0 start =
      some ([0], start) := by
    rw [distLoop]
    simp
  unfold find_optimal_distribution
  simp only [hloop, Option.map_some']

/-- Witness for claim C8 at the concrete configuration `start_cus = 0`,
`idle_cus = 0`. -/
theorem empty_input_single_zero_window_witness :
    find_optimal_distribution 1 [] 0 0 = some ⟨[0], MAX_CUS - 0⟩ :=
  empty_input_single_zero_window 0 0 0 (by decide)

/-- Claim C2, counterexample: with `costs = [3]`, `start_cus = 10`,
`idle_cus = 997995` (effective capacity `5`), the function returns the
partition `[0, 1]`; no step is oversized, yet the first (empty) window
violates the claimed bound: its cumulative cost `0` plus `start_cus = 10`
exceeds the capacity `5`. -/
theorem first_window_offset_overflow :
    find_optimal_distribution 10 [3] 10 997995 = some ⟨[0, 1], 999997⟩ ∧
    (∀ c : Nat, c ∈ ([3] : List Nat) → (c : Int) ≤ MAX_CUS - SECURITY_PADDING - 997995) ∧
    ¬ ((((windowSlices [3] [0, 1]).getD 0 []).sum : Int) + 10 ≤
        MAX_CUS - SECURITY_PADDING - 997995) :=
  ⟨by decide, by decide, by decide⟩

/-- Claim C2, amended: provided `start_cus` itself fits the effective
capacity, every window of a returned partition satisfies the capacity bound
(`start_cus` is charged to the first window).  The oversized-step exemption
of the claim is vacuous in this code: an oversized step prevents the
function from returning at all. -/
theorem capacity_invariant (fuel : Nat) (costs : List Nat) (start idle : Int)
    (res : DistResult)
    (h : find_optimal_distribution fuel costs start idle = some res)
    (hstart : start ≤ MAX_CUS - SECURITY_PADDING - idle) :
    ∀ i : Nat, i < (windowSlices costs res.iterations).length →
      (((windowSlices costs res.iterations).getD i []).sum : Int) +
        (if i = 0 then start else 0) ≤ MAX_CUS - SECURITY_PADDING - idle := by
  obtain ⟨its, wcf, hrun, hits, _⟩ := fod_some fuel costs start idle res h
  obtain ⟨a, ms, hshape, hlen, hcap, hrest⟩ := distRun_capacity _ _ _ _ _ _ _ hrun hstart
  rw [List.nil_append, Nat.zero_add] at hshape
  rw [hits, hshape]
  intro i hi
  cases i with
  | zero =>
    rw [windowSlices, List.getD_cons_zero, if_pos rfl]
    linarith
  | succ j =>
    rw [windowSlices, List.getD_cons_succ, if_neg (Nat.succ_ne_zero j)]
    rw [windowSlices, List.length_cons] at hi
    have hj : j < (windowSlices (costs.drop a) ms).length := Nat.lt_of_succ_lt_succ hi
    have hmem : (windowSlices (costs.drop a) ms).getD j [] ∈
        windowSlices (costs.drop a) ms := by
      rw [List.getD_eq_getElem?_getD, List.getElem?_eq_getElem hj, Option.getD_some]
      exact List.getElem_mem hj
    have := hrest _ hmem
    linarith

/-- Witness for the amended claim C2 at the concrete input `[10, 10, 10]`,
`start_cus = 0`, `idle_cus = 997980` (effective capacity `20`),
first window. -/
theorem capacity_invariant_witness :
    (((windowSlices [10, 10, 10] (⟨[2, 1], 999990⟩ : DistResult).iterations).getD 0 []).sum : Int) +
      (if 0 = 0 then (0 : Int) else 0) ≤ MAX_CUS - SECURITY_PADDING - 997980 :=
  capacity_invariant 7 [10, 10, 10] 0 997980 ⟨[2, 1], 999990⟩ (by decide) (by decide)
    0 (by decide)

/-- Claim C5: the start offset is charged only to the first window.  Whenever
a returned partition has more than one window, the portion after the first
window is exactly what `find_optimal_distribution` returns on the remaining
costs with a start offset of `0` (same remaining-CUs diagnostic included):
after the first close the scan restarts from a running cost of `0`. -/
theorem offset_only_first_window (fuel : Nat) (costs : List Nat) (start idle : Int)
    (res : DistResult) (w0 : Nat) (rest : List Nat)
    (h : find_optimal_distribution fuel costs start idle = some res)
    (hits : res.iterations = w0 :: rest) (hrest : rest ≠ []) :
    ∃ (fuel' : Nat) (res' : DistResult),
      find_optimal_distribution fuel' (costs.drop w0) 0 idle = some res' ∧
      res'.iterations = rest ∧ res'.remaining_cus = res.remaining_cus := by
  obtain ⟨its, wcf, hrun, hits2, hrem⟩ := fod_some fuel costs start idle res h
  obtain ⟨a, ms, hshape, hlen, hnil, hcont⟩ := distRun_decomp _ _ _ _ _ _ _ hrun
  rw [List.nil_append, Nat.zero_add] at hshape
  rw [hits, hshape] at hits2
  injection hits2 with hw0 hms
  subst hw0
  subst hms
  have hcont' := hcont hrest
  exact ⟨2 * (costs.drop w0).length + 1, ⟨rest, MAX_CUS - wcf⟩,
    fod_of_run (costs.drop w0) 0 idle rest wcf hcont', rfl, hrem.symm⟩

/-- Witness for claim C5 at the concrete input `[10, 10, 10]`,
`start_cus = 0`, `idle_cus = 997980`, whose partition is `[2, 1]`. -/
theorem offset_only_first_window_witness :
    ∃ (fuel' : Nat) (res' : DistResult),
      find_optimal_distribution fuel' (List.drop 2 [10, 10, 10]) 0 997980 = some res' ∧
      res'.iterations = [1] ∧
      res'.remaining_cus = (⟨[2, 1], 999990⟩ : DistResult).remaining_cus :=
  offset_only_first_window 7 [10, 10, 10] 0 997980 ⟨[2, 1], 999990⟩ 2 [1]
    (by decide) rfl (by decide)

/-- Claim C6, counterexample: on the empty cost list with `start_cus = 0` and
`idle_cus = 0`, the reported `Remaining CUs` is `1000000 = MAX_CUS`, not the
claimed effective capacity minus the final window's cost, which would be
`998000`: the code prints `MAX_CUS - iteration_cus` (line 29), never
subtracting `SECURITY_PADDING` or `idle_cus`. -/
theorem remaining_cus_not_effective_capacity :
    find_optimal_distribution 1 [] 0 0 = some ⟨[0], 1000000⟩ ∧
    (1000000 : Int) ≠ MAX_CUS - SECURITY_PADDING - 0 - 0 :=
  ⟨by decide, by decide⟩

/-- Claim C6, amended: the reported remaining-capacity diagnostic equals
`MAX_CUS` (not the effective capacity) minus the cumulative cost of the final
window (which includes `start_cus` when the first window is the final one). -/
theorem remaining_cus_eq_max_cus_sub_final_window (fuel : Nat) (costs : List Nat)
    (start idle : Int) (res : DistResult)
    (h : find_optimal_distribution fuel costs start idle = some res) :
    res.remaining_cus = MAX_CUS -
      ((if res.iterations.length = 1 then start else 0) +
        ((((windowSlices costs res.iterations).getLast?.getD []).sum : Nat) : Int)) := by
  obtain ⟨its, wcf, hrun, hits, hrem⟩ := fod_some fuel costs start idle res h
  obtain ⟨a, ms, hshape, hval⟩ := distRun_final _ _ _ _ _ _ _ hrun
  rw [List.nil_append, Nat.zero_add] at hshape
  rw [hits, hshape, hrem]
  cases ms with
  | nil =>
    rw [if_pos rfl] at hval
    have h1 : windowSlices costs [a] = [costs.take a] := by
      rw [windowSlices, windowSlices]
    rw [h1, hval]
    simp
  | cons m ms' =>
    rw [if_neg (List.cons_ne_nil m ms')] at hval
    rw [windowSlices] at hval
    have h1 : windowSlices costs (a :: m :: ms') =
        costs.take a :: (costs.drop a).take m ::
          windowSlices ((costs.drop a).drop m) ms' := by
      rw [windowSlices, windowSlices]
    rw [h1, List.getLast?_cons_cons, if_neg (by simp), hval]
    ring

/-- Witness for the amended claim C6 at the concrete input `[10, 10, 10]`,
`start_cus = 0`, `idle_cus = 997980`, partition `[2, 1]`. -/
theorem remaining_cus_eq_max_cus_sub_final_window_witness :
    (⟨[2, 1], 999990⟩ : DistResult).remaining_cus = MAX_CUS -
      ((if (⟨[2, 1], 999990⟩ : DistResult).iterations.length = 1 then (0 : Int) else 0) +
        ((((windowSlices [10, 10, 10]
            (⟨[2, 1], 999990⟩ : DistResult).iterations).getLast?.getD []).sum : Nat) : Int)) :=
  remaining_cus_eq_max_cus_sub_final_window 7 [10, 10, 10] 0 997980 ⟨[2, 1], 999990⟩
    (by decide)

/-- Claim C7: monotone greediness.  Pointwise-decreasing the costs (in
particular decreasing any single cost) and/or increasing the effective
capacity (decreasing `idle_cus`) never increases the number of windows: any
returning run is matched by a returning run on the smaller input with at
most as many windows. -/
theorem window_count_monotone (fuel : Nat) (costs costs' : List Nat)
    (start idle idle' : Int) (res : DistResult)
    (h : find_optimal_distribution fuel costs start idle = some res)
    (hstart : 0 ≤ start)
    (hcosts : List.Forall₂ (fun a b => a ≤ b) costs' costs)
    (hidle : idle' ≤ idle) :
    ∃ (fuel' : Nat) (res' : DistResult),
      find_optimal_distribution fuel' costs' start idle' = some res' ∧
      res'.iterations.length ≤ res.iterations.length := by
  obtain ⟨its, wcf, hrun, hits, _⟩ := fod_some fuel costs start idle res h
  have hmax : MAX_CUS - SECURITY_PADDING - idle ≤ MAX_CUS - SECURITY_PADDING - idle' := by
    linarith
  obtain ⟨⟨its', wcf'⟩, hrun', hlen⟩ := distRun_dominance _ _ hmax hcosts
    [] [] 0 0 start start (its, wcf) hstart hstart (Or.inr ⟨rfl, le_rfl⟩) hrun
  exact ⟨2 * costs'.length + 1, ⟨its', MAX_CUS - wcf'⟩,
    fod_of_run costs' start idle' its' wcf' hrun', by rw [hits]; exact hlen⟩

/-- Witness for claim C7: decreasing the first cost of `[5, 5]` to `4`
(capacity unchanged) still needs at most as many windows. -/
theorem window_count_monotone_witness :
    ∃ (fuel' : Nat) (res' : DistResult),
      find_optimal_distribution fuel' [4, 5] 0 997990 = some res' ∧
      res'.iterations.length ≤ (⟨[2], 999990⟩ : DistResult).iterations.length :=
  window_count_monotone 7 [5, 5] [4, 5] 0 997990 997990 ⟨[2], 999990⟩ (by decide)
    le_rfl (List.Forall₂.cons (by norm_num)
      (List.Forall₂.cons le_rfl List.Forall₂.nil)) le_rfl

/-- Claim C10: greedy maximality.  On any returning run, every window except
the last is maximal: its cumulative cost (with `start_cus` for the first
window) plus the cost of the first step of the next window strictly exceeds
the effective capacity (`GreedyMax` spells this out window by window). -/
theorem greedy_maximality (fuel : Nat) (costs : List Nat) (start idle : Int)
    (res : DistResult)
    (h : find_optimal_distribution fuel costs start idle = some res) :
    GreedyMax (MAX_CUS - SECURITY_PADDING - idle) start costs res.iterations := by
  obtain ⟨its, wcf, hrun, hits, _⟩ := fod_some fuel costs start idle res h
  obtain ⟨a, ms, hshape, hgm⟩ := distRun_greedy _ _ _ _ _ _ _ hrun
  rw [List.nil_append, Nat.zero_add] at hshape
  rw [hits, hshape]
  exact hgm

/-- Witness for claim C10 at the concrete input `[10, 10, 10]`,
`start_cus = 0`, `idle_cus = 997980`, partition `[2, 1]`. -/
theorem greedy_maximality_witness :
    GreedyMax (MAX_CUS - SECURITY_PADDING - 997980) 0 [10, 10, 10]
      (⟨[2, 1], 999990⟩ : DistResult).iterations :=
  greedy_maximality 7 [10, 10, 10] 0 997980 ⟨[2, 1], 999990⟩ (by decide)

/-! ### The log-delta analyzer `log_to_cus.py` -/

/-- The three statistics printed by log_to_cus.py line 20, in print order. -/
structure CuStats where
  maxDiff : Int
  avgDiff : Int
  minDiff : Int
deriving Repr, DecidableEq

/-- Value of a digit character. -/
def digitVal (c : Char) : Nat := c.toNat - '0'.toNat

/-- Parse a character list the way Python's `int` handles the lines that
survive the leading-digit filter of log_to_cus.py line 7: every character
must be a digit, otherwise `int(line)` raises `ValueError` (modelled as
`none`).  (Python's extra tolerance for digit-group underscores or
surrounding whitespace inside `int` is not exercised by cost-unit log lines
and is not modelled.) -/
def parseIntDigits (acc : Nat) : List Char → Option Nat
  | [] => some acc
  | c :: cs => if c.isDigit then parseIntDigits (acc * 10 + digitVal c) cs else none

/-- One log line, as handled by log_to_cus.py line 7: `none` models the
script crashing on the line (`line[0]` raises `IndexError` on an empty line;
`int(line)` raises `ValueError` on a kept line that is not a plain number),
`some none` a discarded line (first character not a digit), and
`some (some v)` a line contributing the value `v`. -/
def lineValue : List Char → Option (Option Nat)
  | [] => none
  | c :: cs => if c.isDigit then (parseIntDigits 0 (c :: cs)).map some else some none

/-- The sequence `compute_unit_lines` of integer values the script retains
from the log lines (log_to_cus.py lines 5-7; `none` when the script would
crash on some line). -/
def parsedValues (lines : List (List Char)) : Option (List Nat) :=
  (lines.mapM lineValue).map (fun kept => kept.filterMap id)

/-- `log_to_cus.py` lines 9-20, operating on the retained values: drop a
trailing unpaired value (lines 9-10); form the per-pair signed differences
`compute_unit_lines[2i] - compute_unit_lines[2i+1]` while accumulating their
sum (lines 12-18); report `max(diffs)`, the average
`sum // (len(compute_unit_lines) // 2)` — Python's `//` is floor division,
`Int.fdiv` — and `min(diffs)` (line 20).  `none` models the script raising
on `max([])`/`min([])` when there is no pair at all. -/
def logStats (compute_unit_lines0 : List Nat) : Option CuStats :=
  let compute_unit_lines :=
    if compute_unit_lines0.length % 2 ≠ 0 then compute_unit_lines0.dropLast
    else compute_unit_lines0
  let npairs := compute_unit_lines.length / 2
  let diffs := (List.range npairs).map (fun i =>
    ((compute_unit_lines.getD (2 * i) 0 : Nat) : Int) -
      ((compute_unit_lines.getD (2 * i + 1) 0 : Nat) : Int))
  match diffs with
  | [] => none
  | d :: ds =>
      some ⟨ds.foldl max d,
        Int.fdiv (diffs.foldl (fun s x => s + x) 0) ((npairs : Nat) : Int),
        ds.foldl min d⟩

/-- The whole of `log_to_cus.py`: parse the log lines, then compute the
pair-difference statistics. -/
def log_to_cus (lines : List (List Char)) : Option CuStats :=
  (parsedValues lines).bind logStats

/-- Spec-side consecutive pairing: the signed difference (first of the pair
minus second) of each consecutive pair of values, a trailing unpaired value
ignored. -/
def pairDiffs : List Nat → List Int
  | [] => []
  | [_] => []
  | a :: b :: rest => ((a : Int) - (b : Int)) :: pairDiffs rest

/-- The index-based difference list built by the loop of log_to_cus.py
lines 14-16 coincides with the consecutive pairing `pairDiffs`. -/
theorem range_map_eq_pairDiffs : ∀ vs : List Nat,
    (List.range (vs.length / 2)).map (fun i =>
        ((vs.getD (2 * i) 0 : Nat) : Int) - ((vs.getD (2 * i + 1) 0 : Nat) : Int)) =
      pairDiffs vs
  | [] => by simp [pairDiffs]
  | [a] => by simp [pairDiffs]
  | a :: b :: rest => by
    have ih := range_map_eq_pairDiffs rest
    have hlen : (a :: b :: rest).length / 2 = rest.length / 2 + 1 := by
      simp only [List.length_cons]
      omega
    rw [pairDiffs, hlen, List.range_succ_eq_map, List.map_cons, List.map_map]
    congr 1

/-- Dropping the trailing unpaired value (log_to_cus.py lines 9-10) does not
change the consecutive pairing. -/
theorem pairDiffs_dropLast : ∀ vs : List Nat, vs.length % 2 = 1 →
    pairDiffs vs.dropLast = pairDiffs vs
  | [], h => by simp at h
  | [a], _ => by simp [pairDiffs]
  | a :: b :: rest, h => by
    have hodd : rest.length % 2 = 1 := by
      simp only [List.length_cons] at h
      omega
    have hne : rest ≠ [] := by
      intro he
      rw [he] at hodd
      simp at hodd
    have hd : (a :: b :: rest).dropLast = a :: b :: rest.dropLast := by
      rw [List.dropLast_cons_of_ne_nil (List.cons_ne_nil b rest),
        List.dropLast_cons_of_ne_nil hne]
    rw [hd, pairDiffs, pairDiffs, pairDiffs_dropLast rest hodd]

/-- Characterisation of the statistics pass: the index-built difference list
is exactly `pairDiffs` of the retained values, and the average divisor is its
length. -/
theorem logStats_eq (vals : List Nat) :
    logStats vals = match pairDiffs vals with
      | [] => none
      | d :: ds => some ⟨ds.foldl max d,
          Int.fdiv ((pairDiffs vals).foldl (fun s x => s + x) 0)
            ((pairDiffs vals).length : Int),
          ds.foldl min d⟩ := by
  unfold logStats
  by_cases hodd : vals.length % 2 ≠ 0
  · have hodd1 : vals.length % 2 = 1 := by omega
    simp only [if_pos hodd, range_map_eq_pairDiffs, pairDiffs_dropLast vals hodd1]
    have hlen2 : vals.dropLast.length / 2 = (pairDiffs vals).length := by
      have h2 := congrArg List.length (range_map_eq_pairDiffs vals.dropLast)
      rw [pairDiffs_dropLast vals hodd1] at h2
      simpa using h2
    rw [hlen2]
  · simp only [if_neg hodd, range_map_eq_pairDiffs]
    have hlen2 : vals.length / 2 = (pairDiffs vals).length := by
      have h2 := congrArg List.length (range_map_eq_pairDiffs vals)
      simpa using h2
    rw [hlen2]

/-- Claim C9, counterexample: on the log lines `"1", "4", "1", "1"` the pair
differences are `[-3, 0]`; the script reports average `-2`
(`-3 // 2 = -2`, Python floor division) whereas the claimed
truncating-integer average of the differences is `-1`. -/
theorem log_to_cus_floor_not_truncating :
    log_to_cus [['1'], ['4'], ['1'], ['1']] = some ⟨0, -2, -3⟩ ∧
    pairDiffs [1, 4, 1, 1] = [-3, 0] ∧
    Int.tdiv ((-3) + 0) 2 = -1 ∧ ((-2 : Int) ≠ -1) :=
  ⟨by decide, by decide, by decide, by decide⟩

/-- Claim C9, amended: on every list of log lines the script completes on,
it discards the lines not starting with a digit, pairs the retained integer
values consecutively (one trailing unpaired value ignored), and — whenever
at least one pair exists — reports the minimum difference, the maximum
difference, and the floor (not truncating) integer average of the signed
first-minus-second pair differences. -/
theorem log_to_cus_reports_pair_stats (lines : List (List Char)) (vals : List Nat)
    (hp : parsedValues lines = some vals) (hne : pairDiffs vals ≠ []) :
    ∃ stats : CuStats,
      log_to_cus lines = some stats ∧
      stats.maxDiff ∈ pairDiffs vals ∧ (∀ d ∈ pairDiffs vals, d ≤ stats.maxDiff) ∧
      stats.minDiff ∈ pairDiffs vals ∧ (∀ d ∈ pairDiffs vals, stats.minDiff ≤ d) ∧
      stats.avgDiff = Int.fdiv (pairDiffs vals).sum ((pairDiffs vals).length : Int) := by
  obtain ⟨d, ds, hdds⟩ := List.exists_cons_of_ne_nil hne
  have hlog : log_to_cus lines = logStats vals := by
    unfold log_to_cus
    rw [hp]
    rfl
  have hstats := logStats_eq vals
  rw [hdds] at hstats ⊢
  obtain ⟨hmaxmem, hmaxub⟩ :=
    (@List.max?_eq_some_iff Int (ds.foldl max d) _ _
      ⟨fun h1 h2 => le_antisymm h1 h2⟩ (fun a => le_refl a) max_choice
      (fun a b c => max_le_iff) (d :: ds)).mp rfl
  obtain ⟨hminmem, hminlb⟩ :=
    (@List.min?_eq_some_iff Int (ds.foldl min d) _ _
      ⟨fun h1 h2 => le_antisymm h1 h2⟩ (fun a => le_refl a) min_choice
      (fun a b c => le_min_iff) (d :: ds)).mp rfl
  refine ⟨⟨ds.foldl max d,
      Int.fdiv ((d :: ds).foldl (fun s x => s + x) 0) (((d :: ds).length : Nat) : Int),
      ds.foldl min d⟩, hlog.trans hstats, hmaxmem, hmaxub, hminmem, hminlb, ?_⟩
  rw [List.sum_eq_foldl]

/-- Witness for the amended claim C9 at the concrete log lines
`"1", "4", "1", "1"`. -/
theorem log_to_cus_reports_pair_stats_witness :
    ∃ stats : CuStats,
      log_to_cus [['1'], ['4'], ['1'], ['1']] = some stats ∧
      stats.maxDiff ∈ pairDiffs [1, 4, 1, 1] ∧
      (∀ d ∈ pairDiffs [1, 4, 1, 1], d ≤ stats.maxDiff) ∧
      stats.minDiff ∈ pairDiffs [1, 4, 1, 1] ∧
      (∀ d ∈ pairDiffs [1, 4, 1, 1], stats.minDiff ≤ d) ∧
      stats.avgDiff = Int.fdiv (pairDiffs [1, 4, 1, 1]).sum
        ((pairDiffs [1, 4, 1, 1]).length : Int) :=
  log_to_cus_reports_pair_stats [['1'], ['4'], ['1'], ['1']] [1, 4, 1, 1]
    (by decide) (by decide)

end Elusiv
